import Mathlib

/-!
# Verification of the Zilliqa `AccountStore` state-store engine

Shallow embedding of `src/libData/AccountData/AccountStore.cpp` and the
`CreateTransaction` endpoint of `src/libServer/IsolatedServer.cpp`.

The engine's external collaborators (the Messenger codec, the contract
storage, the block storage and the authenticated trie) are not part of the
excerpt; where a claim depends on them they are modelled from the spec, and
their outcomes (success/failure of a disk write, the parsed content of a
delta buffer, ...) are passed to the embedded operations as explicit
parameters.
-/

set_option autoImplicit false

namespace AccountStore

/-- Account addresses (the fixed-width identifier, abstracted to `Nat`). -/
abbrev Addr := Nat

/-- An account value: balance, nonce, contract flag, contract bytecode and
the address field that `Account::SetAddress` writes for contract accounts
during `RetrieveFromDisk`. Accounts are value types, copied into the maps. -/
structure Account where
  balance : Nat
  nonce : Nat
  isContract : Bool
  code : List Nat
  address : Addr
deriving DecidableEq, Repr

/-- Modelled from the spec: the serialized-account byte strings stored as
trie leaves.  The Account Codec (`serialize_account` / `deserialize_account`)
is an external collaborator; it is modelled as a canonical injective codec:
`good a` is the serialization of `a`, and `bad k` stands for any byte string
that does not deserialize into an account. -/
inductive LeafBytes where
  | good (a : Account)
  | bad (k : Nat)
deriving DecidableEq, Repr

/-- Modelled from the spec: `serialize_account (Account) -> bytes`. -/
def serializeAccount (a : Account) : LeafBytes := .good a

/-- Modelled from the spec: `deserialize_account (bytes) -> Result<Account>`
(`Account::DeserializeBase` in the source); fails exactly on bytes that are
not the serialization of an account. -/
def deserializeBase : LeafBytes → Option Account
  | .good a => some a
  | .bad _ => none

/-! ## Address→Account maps

`m_addressToAccount` is a `std::unordered_map<Address, Account>`; it is
embedded as an association list whose observable content is given by
`lookupA` (the internal bucket order of the C++ map is not part of the
model, so map equality is always stated through lookups). -/

/-- First-match lookup, the model of `unordered_map::find`. -/
def lookupA {β : Type} : List (Addr × β) → Addr → Option β
  | [], _ => none
  | (a, v) :: rest, x => if x = a then some v else lookupA rest x

/-- Overwrite-or-append, the model of `unordered_map::operator[]` assignment. -/
def setA {β : Type} : List (Addr × β) → Addr → β → List (Addr × β)
  | [], a, v => [(a, v)]
  | (b, w) :: rest, a, v => if a = b then (a, v) :: rest else (b, w) :: setA rest a v

/-- Erase a key, the model of `unordered_map::erase` (`RemoveAccount`). -/
def eraseA {β : Type} : List (Addr × β) → Addr → List (Addr × β)
  | [], _ => []
  | (b, w) :: rest, a => if b = a then eraseA rest a else (b, w) :: eraseA rest a

/-- Insert only if the key is absent, the model of `unordered_map::insert`
(used by `RetrieveFromDisk`). -/
def insertA {β : Type} (m : List (Addr × β)) (a : Addr) (v : β) : List (Addr × β) :=
  match lookupA m a with
  | some _ => m
  | none => (a, v) :: m

@[simp] theorem lookupA_nil {β : Type} (x : Addr) : lookupA ([] : List (Addr × β)) x = none := rfl

theorem lookupA_cons {β : Type} (a x : Addr) (v : β) (rest : List (Addr × β)) :
    lookupA ((a, v) :: rest) x = if x = a then some v else lookupA rest x := rfl

theorem lookupA_setA {β : Type} (m : List (Addr × β)) (a x : Addr) (v : β) :
    lookupA (setA m a v) x = if x = a then some v else lookupA m x := by
  induction m with
  | nil => by_cases h : x = a <;> simp [setA, lookupA, h]
  | cons p rest ih =>
    obtain ⟨b, w⟩ := p
    by_cases hab : a = b
    · subst hab
      by_cases hx : x = a <;> simp [setA, lookupA, hx]
    · by_cases hx : x = b
      · subst hx
        simp [setA, hab, lookupA, Ne.symm hab]
      · simp [setA, hab, lookupA, hx, ih]

theorem lookupA_eraseA {β : Type} (m : List (Addr × β)) (a x : Addr) :
    lookupA (eraseA m a) x = if x = a then none else lookupA m x := by
  induction m with
  | nil => by_cases h : x = a <;> simp [eraseA, h]
  | cons p rest ih =>
    obtain ⟨b, w⟩ := p
    by_cases hba : b = a
    · subst hba
      by_cases hx : x = b
      · subst hx
        simp [eraseA, ih]
      · simp [eraseA, lookupA, hx, ih]
    · by_cases hx : x = b
      · subst hx
        simp [eraseA, hba, lookupA, Ne.symm hba, ih]
      · simp [eraseA, hba, lookupA, hx, ih]

theorem lookupA_eq_none_of_not_mem {β : Type} (m : List (Addr × β)) (x : Addr)
    (h : x ∉ m.map Prod.fst) : lookupA m x = none := by
  induction m with
  | nil => rfl
  | cons p rest ih =>
    obtain ⟨b, w⟩ := p
    simp only [List.map_cons, List.mem_cons] at h
    push_neg at h
    simp [lookupA, h.1, ih h.2]

theorem lookupA_insertA {β : Type} (m : List (Addr × β)) (a x : Addr) (v : β) :
    lookupA (insertA m a v) x =
      if x = a then (match lookupA m a with | some w => some w | none => some v)
      else lookupA m x := by
  unfold insertA
  cases hm : lookupA m a with
  | some w =>
    by_cases hx : x = a
    · subst hx; simp [hm]
    · simp [hx]
  | none =>
    by_cases hx : x = a
    · subst hx; simp [lookupA, hm]
    · simp [lookupA, hx]

/-- Pointwise update of a function-valued map (`fun` update used for the
trie-staging map and the contract-code store). -/
def fupd {β : Type} (f : Addr → β) (a : Addr) (v : β) : Addr → β :=
  fun x => if x = a then v else f x

@[simp] theorem fupd_same {β : Type} (f : Addr → β) (a : Addr) (v : β) :
    fupd f a v a = v := by simp [fupd]

theorem fupd_ne {β : Type} (f : Addr → β) (a x : Addr) (v : β) (h : x ≠ a) :
    fupd f a v x = f x := by simp [fupd, h]

/-! ## The engine state

One record gathers every piece of state the claims mention.  Fields map to
the C++ members as follows:
* `m`        — `m_addressToAccount`, the Primary Store in-memory mapping;
* `t`        — the staged state trie `m_state` (address → serialized leaf);
* `tBase`    — the last committed (on-disk) version of the trie, so that
               `m_state.db()->commit()` is `tBase := t` and
               `m_state.db()->rollback()` is `t := tBase`;
* `curRoot`  — the root the trie is currently set to (`m_state.setRoot`);
* `prevRoot` — `m_prevRoot`;
* `metaRoot` — the `STATEROOT` entry of the Disk Metadata Store
               (`BlockStorage::PutMetadata` / `GetMetadata`);
* `codeStore`— the contract-code store of the contract-storage collaborator
               (`GetContractCode` returns `[]` when no code is stored);
* `changed`  — `m_addressToAccountRevChanged`;
* `created`  — `m_addressToAccountRevCreated`;
* `csRevertibles` — the staged contract-state changes journalled by the
               contract-storage collaborator's revertibles;
* `delta`    — `m_stateDeltaSerialized` (the delta byte buffer);
* `temp`     — the Temp Overlay's own mapping (`m_accountStoreTemp`). -/
structure StoreState where
  m : List (Addr × Account)
  t : Addr → Option LeafBytes
  tBase : Addr → Option LeafBytes
  curRoot : Nat
  prevRoot : Nat
  metaRoot : Option Nat
  codeStore : Addr → List Nat
  changed : List (Addr × Account)
  created : List Addr
  csRevertibles : List Nat
  delta : List Nat
  temp : List (Addr × Account)

/-! ## Delta hashing (`AccountStore::GetStateDeltaHash`) -/

/-- A fixed-width digest; `StateHash()` default-constructs to all-zero bytes. -/
structure StateHash where
  bytes : List Nat
deriving DecidableEq, Repr

/-- The distinguished empty digest, i.e. the default-constructed `StateHash`. -/
def emptyHash : StateHash := ⟨List.replicate 32 0⟩

/-- The all-bytes-zero scan of `GetStateDeltaHash`: walks the buffer and
stops at the first nonzero byte (`if (i != 0) { isEmpty = false; break; }`). -/
def deltaAllZero : List Nat → Bool
  | [] => true
  | b :: rest => if b ≠ 0 then false else deltaAllZero rest

/-- `AccountStore::GetStateDeltaHash`: the distinguished empty digest when
every stored delta byte is zero, otherwise the SHA-256 digest of the stored
bytes.  The digest function itself (`SHA2<HASH_VARIANT_256>`) is an external
collaborator and is passed in as `sha`. -/
def getStateDeltaHash (sha : List Nat → StateHash) (s : StoreState) : StateHash :=
  if deltaAllZero s.delta then emptyHash else sha s.delta

theorem deltaAllZero_eq_true_iff (l : List Nat) :
    deltaAllZero l = true ↔ ∀ b ∈ l, b = 0 := by
  induction l with
  | nil => simp [deltaAllZero]
  | cons b rest ih =>
    by_cases hb : b = 0
    · subst hb; simp [deltaAllZero, ih]
    · simp [deltaAllZero, hb]

/-! ## The commit / revert protocol

`CommitTemp` / `CommitTempRevertible` hand the stored delta buffer to
`Messenger::GetAccountStoreDelta`, an external codec.  Modelled from the
spec: the codec parses the buffer into a sequence of per-account records and
applies them in order onto the Primary Store's in-memory mapping (not the
trie); a record that fails to parse stops the application and makes the call
fail, leaving the records before it applied.  When `revertible` is true,
every record is classified — existing account (`get_account` finds it) into
the changed set with its prior value, fresh account into the created set —
strictly before the mutation (record-then-mutate).  The parsed form of the
buffer is passed to the embedded operations as an explicit `List DeltaEntry`
argument. -/

/-- One parsed record of a delta buffer: a well-formed account write, or a
malformed record on which `Messenger::GetAccountStoreDelta` fails. -/
inductive DeltaEntry where
  | acc (a : Addr) (v : Account)
  | malformed (k : Nat)
deriving DecidableEq, Repr

/-- `AccountStore::GetAccount` as specified for the Primary Store: check the
in-memory mapping first, else query the trie and deserialize; `none` when
absent or when deserialization fails. -/
def getAcc (m : List (Addr × Account)) (t : Addr → Option LeafBytes) (a : Addr) :
    Option Account :=
  match lookupA m a with
  | some acc => some acc
  | none =>
    match t a with
    | some b => deserializeBase b
    | none => none

/-- `AccountStore::InitRevertibles`: clears the changed and created maps and
re-initializes the contract-storage collaborator's revertibles. -/
def initRevertibles (s : StoreState) : StoreState :=
  { s with changed := [], created := [], csRevertibles := [] }

/-- The delta application of `Messenger::GetAccountStoreDelta` (modelled from
the spec, see above): records are applied in order onto the in-memory
mapping; under `revertible` each touched account is first recorded into the
changed set (with its `getAcc` prior value) or the created set.  Returns the
resulting state and whether the whole buffer was applied. -/
def applyDelta (revertible : Bool) : List DeltaEntry → StoreState → StoreState × Bool
  | [], s => (s, true)
  | .malformed _ :: _, s => (s, false)
  | .acc a v :: rest, s =>
    let s1 :=
      if revertible then
        match getAcc s.m s.t a with
        | some old => { s with changed := s.changed ++ [(a, old)] }
        | none => { s with created := s.created ++ [a] }
      else s
    applyDelta revertible rest { s1 with m := setA s1.m a v }

/-- `AccountStore::DeserializeDelta` (lock handling elided): delegates to the
codec's delta application with the given revertible flag. -/
def deserializeDelta (D : List DeltaEntry) (revertible : Bool) (s : StoreState) :
    StoreState × Bool :=
  applyDelta revertible D s

/-- `AccountStore::CommitTemp`: applies the stored delta (parsed as `D`)
non-revertibly; the codec's failure result is only logged, so the caller
gets back a plain state and no success indication. -/
def commitTemp (D : List DeltaEntry) (s : StoreState) : StoreState :=
  (deserializeDelta D false s).1

/-- `AccountStore::CommitTempRevertible`: first `InitRevertibles`, then the
revertible delta application; the codec's failure result is only logged. -/
def commitTempRevertible (D : List DeltaEntry) (s : StoreState) : StoreState :=
  (deserializeDelta D true (initRevertibles s)).1

/-- The changed-set loop of `AccountStore::RevertCommitTemp`: for every
recorded entry, write the recorded previous value back into the in-memory
mapping and re-serialize it into the trie-staging path (`UpdateStateTrie`). -/
def restoreChanged : List (Addr × Account) → StoreState → StoreState
  | [], s => s
  | (a, old) :: rest, s =>
    restoreChanged rest
      { s with m := setA s.m a old, t := fupd s.t a (some (serializeAccount old)) }

/-- The created-set loop of `AccountStore::RevertCommitTemp`: remove each
recorded account from the in-memory mapping (`RemoveAccount`) and from the
trie-staging path (`RemoveFromTrie`). -/
def removeCreated : List Addr → StoreState → StoreState
  | [], s => s
  | a :: rest, s =>
    removeCreated rest { s with m := eraseA s.m a, t := fupd s.t a none }

/-- `AccountStore::RevertCommitTemp`: restore the changed set, remove the
created set, then have the contract-storage collaborator revert its staged
contract-state changes. -/
def revertCommitTemp (s : StoreState) : StoreState :=
  let s1 := restoreChanged s.changed s
  let s2 := removeCreated s1.created s1
  { s2 with csRevertibles := [] }

/-! ### Pure re-computations of what one commit records

These are *not* translations of source functions; they are specification
devices used to characterize the fold inside `applyDelta`. -/

/-- The well-formed records the codec processes: the prefix of the parsed
buffer before the first malformed record. -/
def accEntries : List DeltaEntry → List (Addr × Account)
  | [] => []
  | .malformed _ :: _ => []
  | .acc a v :: rest => (a, v) :: accEntries rest

/-- The addresses touched by one delta application. -/
def accKeys (D : List DeltaEntry) : List Addr := (accEntries D).map Prod.fst

/-- The changed records of one revertible commit, computed against the
pre-commit mapping and trie. -/
def recChanged (m : List (Addr × Account)) (t : Addr → Option LeafBytes) :
    List (Addr × Account) → List (Addr × Account)
  | [] => []
  | (a, _) :: rest =>
    match getAcc m t a with
    | some old => (a, old) :: recChanged m t rest
    | none => recChanged m t rest

/-- The created records of one revertible commit, computed against the
pre-commit mapping and trie. -/
def recCreated (m : List (Addr × Account)) (t : Addr → Option LeafBytes) :
    List (Addr × Account) → List Addr
  | [] => []
  | (a, _) :: rest =>
    match getAcc m t a with
    | some _ => recCreated m t rest
    | none => a :: recCreated m t rest

/-- The mapping/trie-staging agreement that `RevertCommitTemp` needs at an
address in order to restore it exactly: either the in-memory mapping holds
the account and the trie-staging path holds its serialization, or neither
holds anything for that address. -/
def syncedAt (s : StoreState) (x : Addr) : Bool :=
  match lookupA s.m x, s.t x with
  | some acc, some b => decide (b = serializeAccount acc)
  | none, none => true
  | _, _ => false

/-! ### Characterizing one revertible delta application -/

theorem getAcc_setA_ne (m : List (Addr × Account)) (t : Addr → Option LeafBytes)
    (a x : Addr) (v : Account) (h : x ≠ a) :
    getAcc (setA m a v) t x = getAcc m t x := by
  simp [getAcc, lookupA_setA, h]

theorem recChanged_congr (m m' : List (Addr × Account)) (t t' : Addr → Option LeafBytes)
    (es : List (Addr × Account)) (h : ∀ p ∈ es, getAcc m' t' p.1 = getAcc m t p.1) :
    recChanged m' t' es = recChanged m t es := by
  induction es with
  | nil => rfl
  | cons p rest ih =>
    obtain ⟨a, w⟩ := p
    have ha := h (a, w) (List.mem_cons_self _ _)
    have hrest : ∀ q ∈ rest, getAcc m' t' q.1 = getAcc m t q.1 :=
      fun q hq => h q (List.mem_cons_of_mem _ hq)
    simp only [recChanged, ha, ih hrest]

theorem recCreated_congr (m m' : List (Addr × Account)) (t t' : Addr → Option LeafBytes)
    (es : List (Addr × Account)) (h : ∀ p ∈ es, getAcc m' t' p.1 = getAcc m t p.1) :
    recCreated m' t' es = recCreated m t es := by
  induction es with
  | nil => rfl
  | cons p rest ih =>
    obtain ⟨a, w⟩ := p
    have ha := h (a, w) (List.mem_cons_self _ _)
    have hrest : ∀ q ∈ rest, getAcc m' t' q.1 = getAcc m t q.1 :=
      fun q hq => h q (List.mem_cons_of_mem _ hq)
    simp only [recCreated, ha, ih hrest]

/-- What one `CommitTempRevertible`-style delta application does, expressed
against the pre-application state: the changed and created sets are extended
by the pure re-computations `recChanged` / `recCreated`, the mapping holds
the written values at the processed addresses and is untouched elsewhere,
and the trie-staging path and contract-state journal are untouched. -/
theorem applyDelta_rev_spec (D : List DeltaEntry) (s : StoreState)
    (hN : (accKeys D).Nodup) :
    (applyDelta true D s).1.changed = s.changed ++ recChanged s.m s.t (accEntries D) ∧
    (applyDelta true D s).1.created = s.created ++ recCreated s.m s.t (accEntries D) ∧
    (∀ x, lookupA (applyDelta true D s).1.m x =
      match lookupA (accEntries D) x with
      | some v => some v
      | none => lookupA s.m x) ∧
    (applyDelta true D s).1.t = s.t ∧
    (applyDelta true D s).1.csRevertibles = s.csRevertibles := by
  induction D generalizing s with
  | nil => simp [applyDelta, accEntries, recChanged, recCreated]
  | cons e rest ih =>
    cases e with
    | malformed k => simp [applyDelta, accEntries, recChanged, recCreated]
    | acc a v =>
      simp only [accKeys, accEntries, List.map_cons, List.nodup_cons] at hN
      obtain ⟨ha, hN'⟩ := hN
      have hcongr : ∀ p ∈ accEntries rest,
          getAcc (setA s.m a v) s.t p.1 = getAcc s.m s.t p.1 := by
        intro p hp
        have : p.1 ≠ a := by
          intro hpa
          exact ha (hpa ▸ List.mem_map_of_mem Prod.fst hp)
        exact getAcc_setA_ne s.m s.t a p.1 v this
      have hnone : lookupA (accEntries rest) a = none :=
        lookupA_eq_none_of_not_mem _ a ha
      cases hga : getAcc s.m s.t a with
      | some old =>
        have := ih { s with changed := s.changed ++ [(a, old)], m := setA s.m a v }
          (by simpa [accKeys] using hN')
        obtain ⟨h1, h2, h3, h4, h5⟩ := this
        refine ⟨?_, ?_, ?_, ?_, ?_⟩
        · simpa [applyDelta, hga, accEntries, recChanged,
            recChanged_congr s.m (setA s.m a v) s.t s.t _ hcongr] using h1
        · simpa [applyDelta, hga, accEntries, recCreated,
            recCreated_congr s.m (setA s.m a v) s.t s.t _ hcongr] using h2
        · intro x
          by_cases hx : x = a
          · subst hx
            simpa [applyDelta, hga, accEntries, lookupA_cons, hnone,
              lookupA_setA] using h3 x
          · simpa [applyDelta, hga, accEntries, lookupA_cons, hx,
              lookupA_setA] using h3 x
        · simpa [applyDelta, hga] using h4
        · simpa [applyDelta, hga] using h5
      | none =>
        have := ih { s with created := s.created ++ [a], m := setA s.m a v }
          (by simpa [accKeys] using hN')
        obtain ⟨h1, h2, h3, h4, h5⟩ := this
        refine ⟨?_, ?_, ?_, ?_, ?_⟩
        · simpa [applyDelta, hga, accEntries, recChanged,
            recChanged_congr s.m (setA s.m a v) s.t s.t _ hcongr] using h1
        · simpa [applyDelta, hga, accEntries, recCreated,
            recCreated_congr s.m (setA s.m a v) s.t s.t _ hcongr] using h2
        · intro x
          by_cases hx : x = a
          · subst hx
            simpa [applyDelta, hga, accEntries, lookupA_cons, hnone,
              lookupA_setA] using h3 x
          · simpa [applyDelta, hga, accEntries, lookupA_cons, hx,
              lookupA_setA] using h3 x
        · simpa [applyDelta, hga] using h4
        · simpa [applyDelta, hga] using h5

/-! ### Characterizing the two revert loops -/

theorem restoreChanged_created (C : List (Addr × Account)) (s : StoreState) :
    (restoreChanged C s).created = s.created := by
  induction C generalizing s with
  | nil => rfl
  | cons p rest ih => obtain ⟨a, old⟩ := p; simp [restoreChanged, ih]

theorem restoreChanged_m (C : List (Addr × Account)) (s : StoreState) (x : Addr)
    (hC : (C.map Prod.fst).Nodup) :
    lookupA (restoreChanged C s).m x =
      match lookupA C x with
      | some old => some old
      | none => lookupA s.m x := by
  induction C generalizing s with
  | nil => rfl
  | cons p rest ih =>
    obtain ⟨a, old⟩ := p
    simp only [List.map_cons, List.nodup_cons] at hC
    obtain ⟨ha, hC'⟩ := hC
    by_cases hx : x = a
    · subst hx
      have hnone : lookupA rest x = none := lookupA_eq_none_of_not_mem _ x ha
      simp [restoreChanged, ih _ hC', hnone, lookupA_cons, lookupA_setA]
    · simp [restoreChanged, ih _ hC', lookupA_cons, hx, lookupA_setA]

theorem restoreChanged_t (C : List (Addr × Account)) (s : StoreState) (x : Addr)
    (hC : (C.map Prod.fst).Nodup) :
    (restoreChanged C s).t x =
      match lookupA C x with
      | some old => some (serializeAccount old)
      | none => s.t x := by
  induction C generalizing s with
  | nil => rfl
  | cons p rest ih =>
    obtain ⟨a, old⟩ := p
    simp only [List.map_cons, List.nodup_cons] at hC
    obtain ⟨ha, hC'⟩ := hC
    by_cases hx : x = a
    · subst hx
      have hnone : lookupA rest x = none := lookupA_eq_none_of_not_mem _ x ha
      simp [restoreChanged, ih _ hC', hnone, lookupA_cons, fupd]
    · simp [restoreChanged, ih _ hC', lookupA_cons, hx, fupd_ne _ _ _ _ hx]

theorem removeCreated_m (K : List Addr) (s : StoreState) (x : Addr) :
    lookupA (removeCreated K s).m x =
      if x ∈ K then none else lookupA s.m x := by
  induction K generalizing s with
  | nil => simp [removeCreated]
  | cons a rest ih =>
    by_cases hx : x = a
    · subst hx
      by_cases hr : x ∈ rest <;> simp [removeCreated, ih, hr, lookupA_eraseA]
    · simp [removeCreated, ih, lookupA_eraseA, hx, List.mem_cons]

theorem removeCreated_t (K : List Addr) (s : StoreState) (x : Addr) :
    (removeCreated K s).t x = if x ∈ K then none else s.t x := by
  induction K generalizing s with
  | nil => simp [removeCreated]
  | cons a rest ih =>
    by_cases hx : x = a
    · subst hx
      by_cases hr : x ∈ rest <;> simp [removeCreated, ih, hr, fupd]
    · simp [removeCreated, ih, fupd_ne _ _ _ _ hx, hx, List.mem_cons]

/-! ### Membership facts about the pure classifiers -/

theorem recChanged_keys_sublist (m : List (Addr × Account)) (t : Addr → Option LeafBytes)
    (es : List (Addr × Account)) :
    ((recChanged m t es).map Prod.fst).Sublist (es.map Prod.fst) := by
  induction es with
  | nil => simp [recChanged]
  | cons p rest ih =>
    obtain ⟨a, w⟩ := p
    cases hga : getAcc m t a with
    | some old => simpa [recChanged, hga] using ih.cons₂ a
    | none => simpa [recChanged, hga] using ih.cons a

theorem recCreated_sublist (m : List (Addr × Account)) (t : Addr → Option LeafBytes)
    (es : List (Addr × Account)) :
    (recCreated m t es).Sublist (es.map Prod.fst) := by
  induction es with
  | nil => simp [recCreated]
  | cons p rest ih =>
    obtain ⟨a, w⟩ := p
    cases hga : getAcc m t a with
    | some old => simpa [recCreated, hga] using ih.cons a
    | none => simpa [recCreated, hga] using ih.cons₂ a

theorem lookupA_recChanged_of_getAcc (m : List (Addr × Account))
    (t : Addr → Option LeafBytes) (es : List (Addr × Account)) (x : Addr) (old : Account)
    (hx : x ∈ es.map Prod.fst) (hga : getAcc m t x = some old) :
    lookupA (recChanged m t es) x = some old := by
  induction es with
  | nil => simp at hx
  | cons p rest ih =>
    obtain ⟨a, w⟩ := p
    by_cases hxa : x = a
    · subst hxa
      simp [recChanged, hga, lookupA_cons]
    · simp only [List.map_cons, List.mem_cons] at hx
      have hx' : x ∈ rest.map Prod.fst := hx.resolve_left hxa
      cases hgb : getAcc m t a with
      | some oldb => simp [recChanged, hgb, lookupA_cons, hxa, ih hx']
      | none => simp [recChanged, hgb, ih hx']

theorem lookupA_recChanged_of_getAcc_none (m : List (Addr × Account))
    (t : Addr → Option LeafBytes) (es : List (Addr × Account)) (x : Addr)
    (hga : getAcc m t x = none) :
    lookupA (recChanged m t es) x = none := by
  induction es with
  | nil => rfl
  | cons p rest ih =>
    obtain ⟨a, w⟩ := p
    cases hgb : getAcc m t a with
    | some oldb =>
      have hxa : x ≠ a := by
        intro h; rw [h, hgb] at hga; exact Option.noConfusion hga
      simp [recChanged, hgb, lookupA_cons, hxa, ih]
    | none => simp [recChanged, hgb, ih]

theorem not_mem_recCreated_of_getAcc (m : List (Addr × Account))
    (t : Addr → Option LeafBytes) (es : List (Addr × Account)) (x : Addr) (old : Account)
    (hga : getAcc m t x = some old) : x ∉ recCreated m t es := by
  induction es with
  | nil => simp [recCreated]
  | cons p rest ih =>
    obtain ⟨a, w⟩ := p
    cases hgb : getAcc m t a with
    | some oldb => simpa [recCreated, hgb] using ih
    | none =>
      have hxa : x ≠ a := by
        intro h; rw [h, hgb] at hga; exact Option.noConfusion hga
      simp [recCreated, hgb, List.mem_cons, hxa, ih]

theorem mem_recCreated_of_getAcc_none (m : List (Addr × Account))
    (t : Addr → Option LeafBytes) (es : List (Addr × Account)) (x : Addr)
    (hx : x ∈ es.map Prod.fst) (hga : getAcc m t x = none) :
    x ∈ recCreated m t es := by
  induction es with
  | nil => simp at hx
  | cons p rest ih =>
    obtain ⟨a, w⟩ := p
    by_cases hxa : x = a
    · subst hxa
      simp [recCreated, hga, List.mem_cons]
    · simp only [List.map_cons, List.mem_cons] at hx
      have hx' : x ∈ rest.map Prod.fst := hx.resolve_left hxa
      cases hgb : getAcc m t a with
      | some oldb => simp [recCreated, hgb, ih hx']
      | none => simp [recCreated, hgb, List.mem_cons, ih hx']

/-! ## Claim C1: commit-then-revert -/

/-- C1 (amended): for every well-formed delta `D` (distinct addresses) and
every pre-state in which, at each address the delta touches, the in-memory
mapping and the trie-staging path agree (`syncedAt`), executing
`CommitTempRevertible` on `D` and then `RevertCommitTemp` restores both the
in-memory address-to-account mapping and the trie-staging path exactly:
every changed address is put back to its recorded previous value, every
created address is removed from both, and no other address is touched. -/
theorem commitTempRevertible_then_revert_exact (s : StoreState) (D : List DeltaEntry)
    (hN : (accKeys D).Nodup)
    (hsync : ∀ a ∈ accKeys D, syncedAt s a = true) :
    ∀ x, lookupA (revertCommitTemp (commitTempRevertible D s)).m x = lookupA s.m x ∧
      (revertCommitTemp (commitTempRevertible D s)).t x = s.t x := by
  intro x
  have hspec := applyDelta_rev_spec D (initRevertibles s) hN
  obtain ⟨hch, hcr, hm, ht, _⟩ := hspec
  set r := (applyDelta true D (initRevertibles s)).1 with hr
  have hrch : r.changed = recChanged s.m s.t (accEntries D) := by
    simpa [initRevertibles] using hch
  have hrcr : r.created = recCreated s.m s.t (accEntries D) := by
    simpa [initRevertibles] using hcr
  have hrt : r.t = s.t := by simpa [initRevertibles] using ht
  have hrm : ∀ y, lookupA r.m y =
      match lookupA (accEntries D) y with
      | some v => some v
      | none => lookupA s.m y := by
    intro y; simpa [initRevertibles] using hm y
  have hNes : ((accEntries D).map Prod.fst).Nodup := hN
  have hCnd : ((recChanged s.m s.t (accEntries D)).map Prod.fst).Nodup :=
    hNes.sublist (recChanged_keys_sublist s.m s.t (accEntries D))
  have hres : revertCommitTemp (commitTempRevertible D s) =
      { removeCreated (restoreChanged r.changed r).created (restoreChanged r.changed r)
          with csRevertibles := [] } := by
    simp [revertCommitTemp, commitTempRevertible, deserializeDelta, hr]
  have hs1cr : (restoreChanged r.changed r).created = r.created :=
    restoreChanged_created r.changed r
  rw [hres, hs1cr, hrch, hrcr]
  by_cases hx : x ∈ (accEntries D).map Prod.fst
  · have hsx : syncedAt s x = true := hsync x hx
    cases hmx : lookupA s.m x with
    | some acc =>
      cases htx : s.t x with
      | some b =>
        have hb : b = serializeAccount acc := by
          have := hsx
          simp only [syncedAt, hmx, htx, decide_eq_true_eq] at this
          exact this
        have hget : getAcc s.m s.t x = some acc := by simp [getAcc, hmx]
        have hlc : lookupA (recChanged s.m s.t (accEntries D)) x = some acc :=
          lookupA_recChanged_of_getAcc s.m s.t (accEntries D) x acc hx hget
        have hnk : x ∉ recCreated s.m s.t (accEntries D) :=
          not_mem_recCreated_of_getAcc s.m s.t (accEntries D) x acc hget
        constructor
        · rw [removeCreated_m, if_neg hnk, restoreChanged_m _ _ _ hCnd, hlc]
        · rw [removeCreated_t, if_neg hnk, restoreChanged_t _ _ _ hCnd, hlc, hb]
      | none =>
        exact absurd hsx (by simp [syncedAt, hmx, htx])
    | none =>
      cases htx : s.t x with
      | some b =>
        exact absurd hsx (by simp [syncedAt, hmx, htx])
      | none =>
        have hget : getAcc s.m s.t x = none := by simp [getAcc, hmx, htx]
        have hk : x ∈ recCreated s.m s.t (accEntries D) :=
          mem_recCreated_of_getAcc_none s.m s.t (accEntries D) x hx hget
        constructor
        · rw [removeCreated_m, if_pos hk]
        · rw [removeCreated_t, if_pos hk]
  · have hnk : x ∉ recCreated s.m s.t (accEntries D) := by
      intro h
      exact hx ((recCreated_sublist s.m s.t (accEntries D)).subset h)
    have hnc : x ∉ (recChanged s.m s.t (accEntries D)).map Prod.fst := by
      intro h
      exact hx ((recChanged_keys_sublist s.m s.t (accEntries D)).subset h)
    have hlcn : lookupA (recChanged s.m s.t (accEntries D)) x = none :=
      lookupA_eq_none_of_not_mem _ x hnc
    have hesn : lookupA (accEntries D) x = none :=
      lookupA_eq_none_of_not_mem _ x hx
    have hrmx : lookupA r.m x = lookupA s.m x := by
      have := hrm x
      rw [hesn] at this
      simpa using this
    constructor
    · rw [removeCreated_m, if_neg hnk, restoreChanged_m _ _ _ hCnd, hlcn]
      simpa using hrmx
    · rw [removeCreated_t, if_neg hnk, restoreChanged_t _ _ _ hCnd, hlcn]
      simp [hrt]

/-! ### Concrete states used by witnesses and counterexamples -/

/-- A plain account. -/
def accA : Account := ⟨100, 0, false, [], 0⟩

/-- Another plain account (a different value at the same address). -/
def accB : Account := ⟨30, 1, false, [], 0⟩

/-- A contract account with bytecode. -/
def accC : Account := ⟨20, 0, true, [7, 7], 7⟩

/-- The freshly initialized engine state: everything empty. -/
def emptyState : StoreState :=
  { m := [], t := fun _ => none, tBase := fun _ => none, curRoot := 0, prevRoot := 0,
    metaRoot := none, codeStore := fun _ => [], changed := [], created := [],
    csRevertibles := [], delta := [], temp := [] }

/-- A state whose mapping holds `accA` at address 0 with the matching
serialization staged in the trie (mapping and trie-staging in sync). -/
def sSync : StoreState :=
  { emptyState with
    m := [(0, accA)],
    t := fun x => if x = 0 then some (LeafBytes.good accA) else none }

/-- A state whose mapping holds `accA` at address 0 while the trie-staging
path holds nothing for it (mapping and trie-staging out of sync). -/
def sUnsync : StoreState := { emptyState with m := [(0, accA)] }

/-- A delta overwriting address 0 and creating address 1. -/
def dTwo : List DeltaEntry := [.acc 0 accB, .acc 1 accC]

/-- A delta overwriting address 0 only. -/
def dOne : List DeltaEntry := [.acc 0 accB]

/-- Witness for C1: the amended theorem applied to the synced state `sSync`
and the delta `dTwo`, with both hypotheses discharged by evaluation. -/
theorem commitTempRevertible_then_revert_exact_witness :
    (accKeys dTwo).Nodup ∧ (∀ a ∈ accKeys dTwo, syncedAt sSync a = true) ∧
    (∀ x, lookupA (revertCommitTemp (commitTempRevertible dTwo sSync)).m x
        = lookupA sSync.m x ∧
      (revertCommitTemp (commitTempRevertible dTwo sSync)).t x = sSync.t x) :=
  ⟨by decide, by decide,
    commitTempRevertible_then_revert_exact sSync dTwo (by decide) (by decide)⟩

/-- C1 as stated is false: on `sUnsync` (address 0 dirty in the mapping but
not yet staged into the trie) the delta `dOne` is recorded as a change of
address 0, and `RevertCommitTemp` then writes the recorded previous value
into the trie-staging path — which held nothing for address 0 before the
commit, so the trie-staging state is not bit-identical to its pre-commit
state. -/
theorem commitTempRevertible_then_revert_not_exact :
    (revertCommitTemp (commitTempRevertible dOne sUnsync)).t 0
        = some (LeafBytes.good accA) ∧
    sUnsync.t 0 = none := by
  constructor
  · decide
  · decide

/-! ## Claim C5: the change set after `CommitTempRevertible` -/

theorem classified_mem_iff (m : List (Addr × Account)) (t : Addr → Option LeafBytes)
    (es : List (Addr × Account)) (x : Addr) :
    (x ∈ (recChanged m t es).map Prod.fst ∨ x ∈ recCreated m t es) ↔
      x ∈ es.map Prod.fst := by
  induction es with
  | nil => simp [recChanged, recCreated]
  | cons p rest ih =>
    obtain ⟨a, w⟩ := p
    cases hga : getAcc m t a with
    | some old =>
      by_cases hxa : x = a
      · subst hxa
        simp [recChanged, recCreated, hga, List.mem_cons]
      · simp only [recChanged, recCreated, hga, List.map_cons, List.mem_cons, hxa,
          false_or]
        exact ih
    | none =>
      by_cases hxa : x = a
      · subst hxa
        simp [recChanged, recCreated, hga, List.mem_cons]
      · simp only [recChanged, recCreated, hga, List.map_cons, List.mem_cons, hxa,
          false_or]
        exact ih

/-- C5: `CommitTempRevertible` resets the Revertible Change Set before the
revertible delta application, so after the call an address is in the
changed or created set exactly when this commit touched it — regardless of
what the change set held before the call. -/
theorem commitTempRevertible_changeSet_exact (s : StoreState) (D : List DeltaEntry)
    (hN : (accKeys D).Nodup) :
    ∀ x, (x ∈ (commitTempRevertible D s).changed.map Prod.fst ∨
          x ∈ (commitTempRevertible D s).created) ↔ x ∈ accKeys D := by
  intro x
  obtain ⟨hch, hcr, -, -, -⟩ := applyDelta_rev_spec D (initRevertibles s) hN
  have hch' : (commitTempRevertible D s).changed = recChanged s.m s.t (accEntries D) := by
    simpa [commitTempRevertible, deserializeDelta, initRevertibles] using hch
  have hcr' : (commitTempRevertible D s).created = recCreated s.m s.t (accEntries D) := by
    simpa [commitTempRevertible, deserializeDelta, initRevertibles] using hcr
  rw [hch', hcr']
  exact classified_mem_iff s.m s.t (accEntries D) x

/-- A state carrying stale revertible records from an earlier commit. -/
def sStale : StoreState :=
  { emptyState with m := [(0, accA)], changed := [(9, accA)], created := [8] }

/-- Witness for C5: applied to `sStale` (stale records at addresses 9 and 8)
and the delta `dTwo`; address 9 is no longer recorded after the call, while
the touched addresses 0 and 1 are exactly the recorded ones. -/
theorem commitTempRevertible_changeSet_exact_witness :
    (accKeys dTwo).Nodup ∧
    (((9 ∈ (commitTempRevertible dTwo sStale).changed.map Prod.fst ∨
       9 ∈ (commitTempRevertible dTwo sStale).created) ↔ 9 ∈ accKeys dTwo) ∧
     ((0 ∈ (commitTempRevertible dTwo sStale).changed.map Prod.fst ∨
       0 ∈ (commitTempRevertible dTwo sStale).created) ↔ 0 ∈ accKeys dTwo)) :=
  ⟨by decide,
    commitTempRevertible_changeSet_exact sStale dTwo (by decide) 9,
    commitTempRevertible_changeSet_exact sStale dTwo (by decide) 0⟩

/-! ## `AccountStore::MoveUpdatesToDisk` (claims C2 and C4)

The collaborator calls inside the function — `PutContractCodeBatch`,
`ContractStorage::CommitStateDB`, `m_state.db()->commit()` and
`PutMetadata` — are external; one `DiskOutcome` record carries their
results for a single call (`trieCommit = none` models the trie commit
throwing, `some r` a successful commit whose new root `m_state.root()`
is `r`).  `PutContractCodeBatch` is modelled as atomic (nothing written
when it fails), and `DeleteContractCode` as succeeding (its failure is
only logged in the source). -/

/-- External outcomes of the collaborator calls made by one
`MoveUpdatesToDisk` invocation. -/
structure DiskOutcome where
  putBatchOk : Bool
  commitStateOk : Bool
  trieCommit : Option Nat
  putMetaOk : Bool
deriving DecidableEq, Repr

/-- The `code_batch` loop: every in-memory account flagged as a contract
whose code is not yet in the contract-code store contributes its code. -/
def codeBatch (cs : Addr → List Nat) : List (Addr × Account) → List (Addr × List Nat)
  | [] => []
  | (a, acc) :: rest =>
    if acc.isContract then
      if cs a = [] then (a, acc.code) :: codeBatch cs rest
      else codeBatch cs rest
    else codeBatch cs rest

/-- `PutContractCodeBatch` on a successful outcome: write every batch entry
into the contract-code store. -/
def writeBatch : List (Addr × List Nat) → (Addr → List Nat) → Addr → List Nat
  | [], cs => cs
  | (a, c) :: rest, cs => writeBatch rest (fupd cs a c)

/-- The rollback loop: `DeleteContractCode` for every batch entry. -/
def deleteBatch : List (Addr × List Nat) → (Addr → List Nat) → Addr → List Nat
  | [], cs => cs
  | (a, _) :: rest, cs => deleteBatch rest (fupd cs a [])

/-- `AccountStore::MoveRootToDisk`: persist the root under `STATEROOT`; a
`PutMetadata` failure is only logged. -/
def moveRootToDisk (ok : Bool) (r : Nat) (s : StoreState) : StoreState :=
  if ok then { s with metaRoot := some r } else s

/-- `AccountStore::MoveUpdatesToDisk`: build and put the contract-code
batch (fail if the put fails); commit the contract-storage state DB and, if
that fails, delete this call's code batch — but then still fall through to
the trie commit; commit the trie (fail if it throws, leaving the mapping
untouched); on a successful trie commit advance `m_prevRoot` to the new
root, persist it, clear the in-memory mapping and report success. -/
def moveUpdatesToDisk (o : DiskOutcome) (s : StoreState) : StoreState × Bool :=
  let batch := codeBatch s.codeStore s.m
  if o.putBatchOk then
    let s1 := { s with codeStore := writeBatch batch s.codeStore }
    let s2 :=
      if o.commitStateOk then s1
      else { s1 with codeStore := deleteBatch batch s1.codeStore }
    match o.trieCommit with
    | none => (s2, false)
    | some r =>
      let s3 := moveRootToDisk o.putMetaOk r { s2 with tBase := s2.t, prevRoot := r }
      ({ s3 with m := [] }, true)
  else (s, false)

/-- C2: whenever `MoveUpdatesToDisk` returns failure the in-memory mapping
is exactly what it was before the call; whenever it returns success the
mapping is cleared and `m_prevRoot` is advanced to the newly committed
trie root. -/
theorem moveUpdatesToDisk_mapping (o : DiskOutcome) (s : StoreState) :
    ((moveUpdatesToDisk o s).2 = false → (moveUpdatesToDisk o s).1.m = s.m) ∧
    ((moveUpdatesToDisk o s).2 = true →
      (moveUpdatesToDisk o s).1.m = [] ∧
      ∃ r, o.trieCommit = some r ∧ (moveUpdatesToDisk o s).1.prevRoot = r) := by
  obtain ⟨pb, csOk, tc, pm⟩ := o
  cases pb
  · simp [moveUpdatesToDisk]
  · cases tc with
    | none => cases csOk <;> simp [moveUpdatesToDisk]
    | some r => cases csOk <;> cases pm <;> simp [moveUpdatesToDisk, moveRootToDisk]

/-- A state holding one dirty contract account whose code is not stored. -/
def sContract : StoreState := { emptyState with m := [(7, accC)] }

/-- A failing outcome: the trie commit throws. -/
def oTrieFail : DiskOutcome := ⟨true, true, none, true⟩

/-- A succeeding outcome: every collaborator call succeeds, new root 5. -/
def oAllOk : DiskOutcome := ⟨true, true, some 5, true⟩

/-- Witness for C2: a failing call (trie commit throws) leaves the mapping
of `sContract` untouched; a succeeding call clears it and advances
`m_prevRoot` to the new root. -/
theorem moveUpdatesToDisk_mapping_witness :
    ((moveUpdatesToDisk oTrieFail sContract).2 = false ∧
     (moveUpdatesToDisk oTrieFail sContract).1.m = sContract.m) ∧
    ((moveUpdatesToDisk oAllOk sContract).2 = true ∧
     (moveUpdatesToDisk oAllOk sContract).1.m = [] ∧
     ∃ r, oAllOk.trieCommit = some r ∧ (moveUpdatesToDisk oAllOk sContract).1.prevRoot = r) :=
  ⟨⟨by decide, (moveUpdatesToDisk_mapping oTrieFail sContract).1 (by decide)⟩,
   ⟨by decide, (moveUpdatesToDisk_mapping oAllOk sContract).2 (by decide)⟩⟩

/-! ## Claim C4: contract-code rollback inside `MoveUpdatesToDisk` -/

theorem codeBatch_mem_empty (cs : Addr → List Nat) (m : List (Addr × Account)) :
    ∀ p ∈ codeBatch cs m, cs p.1 = [] := by
  induction m with
  | nil => simp [codeBatch]
  | cons q rest ih =>
    obtain ⟨a, acc⟩ := q
    intro p hp
    by_cases hc : acc.isContract
    · by_cases he : cs a = []
      · simp only [codeBatch, hc, he, if_true, if_pos, List.mem_cons] at hp
        rcases hp with hp | hp
        · rw [hp]; exact he
        · exact ih p hp
      · simp only [codeBatch, hc, he, if_true, if_false] at hp
        exact ih p hp
    · simp only [codeBatch, hc, if_false] at hp
      exact ih p hp

theorem deleteBatch_apply (L : List (Addr × List Nat)) (cs : Addr → List Nat) (x : Addr) :
    deleteBatch L cs x = if x ∈ L.map Prod.fst then [] else cs x := by
  induction L generalizing cs with
  | nil => simp [deleteBatch]
  | cons p rest ih =>
    obtain ⟨a, c⟩ := p
    by_cases hx : x = a
    · subst hx
      by_cases hr : x ∈ rest.map Prod.fst <;>
        simp [deleteBatch, ih, hr, fupd, List.mem_cons]
    · rw [deleteBatch, ih, fupd_ne _ _ _ _ hx]
      by_cases hr : x ∈ rest.map Prod.fst <;> simp [List.mem_cons, hx, hr]

theorem writeBatch_not_mem (L : List (Addr × List Nat)) (cs : Addr → List Nat) (x : Addr)
    (hx : x ∉ L.map Prod.fst) : writeBatch L cs x = cs x := by
  induction L generalizing cs with
  | nil => rfl
  | cons p rest ih =>
    obtain ⟨a, c⟩ := p
    simp only [List.map_cons, List.mem_cons] at hx
    push_neg at hx
    rw [writeBatch, ih _ hx.2, fupd_ne _ _ _ _ hx.1]

theorem deleteBatch_writeBatch (L : List (Addr × List Nat)) (cs : Addr → List Nat)
    (h : ∀ p ∈ L, cs p.1 = []) :
    (fun x => deleteBatch L (writeBatch L cs) x) = cs := by
  funext x
  rw [deleteBatch_apply]
  by_cases hx : x ∈ L.map Prod.fst
  · rw [if_pos hx]
    obtain ⟨p, hp, hpx⟩ := List.mem_map.mp hx
    rw [← hpx]
    exact (h p hp).symm
  · rw [if_neg hx, writeBatch_not_mem _ _ _ hx]

theorem moveUpdatesToDisk_codeStore_eq (o : DiskOutcome) (s : StoreState)
    (hpb : o.putBatchOk = true) (hcs : o.commitStateOk = false) :
    (moveUpdatesToDisk o s).1.codeStore =
      deleteBatch (codeBatch s.codeStore s.m)
        (writeBatch (codeBatch s.codeStore s.m) s.codeStore) := by
  obtain ⟨pb, csOk, tc, pm⟩ := o
  simp only at hpb hcs
  subst hpb hcs
  cases tc <;> cases pm <;> simp [moveUpdatesToDisk, moveRootToDisk]

/-- C4 (amended): the contract-code batch is put before the contract-storage
state commit and the trie commit; whenever the contract-storage state commit
(`CommitStateDB`) fails, every contract-code entry written by this call's
batch is deleted again, leaving the contract-code store exactly as before
the call (the operation then still falls through to the trie commit rather
than returning failure; a failing trie commit does not trigger this
rollback). -/
theorem moveUpdatesToDisk_stateDB_failure_rolls_back_code (o : DiskOutcome)
    (s : StoreState) (hpb : o.putBatchOk = true) (hcs : o.commitStateOk = false) :
    (moveUpdatesToDisk o s).1.codeStore = s.codeStore := by
  rw [moveUpdatesToDisk_codeStore_eq o s hpb hcs]
  have := deleteBatch_writeBatch (codeBatch s.codeStore s.m) s.codeStore
    (codeBatch_mem_empty s.codeStore s.m)
  funext x
  exact congrFun this x

/-- An outcome where the contract-storage state commit fails (and the trie
commit then succeeds). -/
def oStateDBFail : DiskOutcome := ⟨true, false, some 5, true⟩

/-- Witness for C4 (amended): on `sContract` with a failing
`CommitStateDB`, the contract-code store ends exactly as it started. -/
theorem moveUpdatesToDisk_stateDB_failure_rolls_back_code_witness :
    oStateDBFail.putBatchOk = true ∧ oStateDBFail.commitStateOk = false ∧
    (moveUpdatesToDisk oStateDBFail sContract).1.codeStore = sContract.codeStore :=
  ⟨by decide, by decide,
    moveUpdatesToDisk_stateDB_failure_rolls_back_code oStateDBFail sContract
      (by decide) (by decide)⟩

/-- C4 as stated is false: when the trie commit itself fails (throws), the
contract-code entries written by this call's batch are NOT deleted — the
operation returns failure with the code of address 7 still stored, although
it was absent before the call. -/
theorem moveUpdatesToDisk_no_rollback_on_trie_failure :
    (moveUpdatesToDisk oTrieFail sContract).2 = false ∧
    (moveUpdatesToDisk oTrieFail sContract).1.codeStore 7 = accC.code ∧
    sContract.codeStore 7 = [] := by
  refine ⟨by decide, by decide, by decide⟩

/-! ## Claim C3: `GetStateDeltaHash` -/

/-- C3: `GetStateDeltaHash` returns the distinguished empty digest (the
default-constructed `StateHash`) whenever every byte of the stored delta is
zero — including the zero-length buffer — and otherwise the SHA-256 digest
of the stored bytes, for any digest function `sha` standing for SHA-256. -/
theorem getStateDeltaHash_spec (sha : List Nat → StateHash) (s : StoreState) :
    ((∀ b ∈ s.delta, b = 0) → getStateDeltaHash sha s = emptyHash) ∧
    ((∃ b ∈ s.delta, b ≠ 0) → getStateDeltaHash sha s = sha s.delta) := by
  constructor
  · intro h
    rw [getStateDeltaHash, if_pos ((deltaAllZero_eq_true_iff s.delta).mpr h)]
  · intro h
    obtain ⟨b, hb, hbne⟩ := h
    rw [getStateDeltaHash, if_neg]
    intro hz
    exact hbne ((deltaAllZero_eq_true_iff s.delta).mp hz b hb)

/-- A concrete stand-in for the SHA-256 collaborator in witnesses. -/
def shaW (l : List Nat) : StateHash := ⟨l ++ [1]⟩

/-- A state whose stored delta is nonempty but all-zero. -/
def sDeltaZero : StoreState := { emptyState with delta := [0, 0] }

/-- A state whose stored delta has a nonzero byte. -/
def sDeltaNonzero : StoreState := { emptyState with delta := [0, 3] }

/-- Witness for C3: the all-zero buffer `[0, 0]` hashes to the empty digest
and the buffer `[0, 3]` hashes to `sha [0, 3]`. -/
theorem getStateDeltaHash_spec_witness :
    ((∀ b ∈ sDeltaZero.delta, b = 0) ∧ getStateDeltaHash shaW sDeltaZero = emptyHash) ∧
    ((∃ b ∈ sDeltaNonzero.delta, b ≠ 0) ∧
      getStateDeltaHash shaW sDeltaNonzero = shaW sDeltaNonzero.delta) :=
  ⟨⟨by decide, (getStateDeltaHash_spec shaW sDeltaZero).1 (by decide)⟩,
   ⟨by decide, (getStateDeltaHash_spec shaW sDeltaNonzero).2 (by decide)⟩⟩

/-! ## Claim C10: `SerializeDelta` failure and the stored delta -/

/-- `AccountStore::SerializeDelta`: unconditionally clear the stored delta
buffer, then have `Messenger::SetAccountStoreDelta` recompute it from the
Temp Overlay and the Primary Store.  The codec is external; its outcome is
`some bs` (success, writing `bs`) or `none` (failure; modelled from the
spec with a codec that writes nothing on failure). -/
def serializeDelta (out : Option (List Nat)) (s : StoreState) : StoreState × Bool :=
  let s0 := { s with delta := [] }
  match out with
  | some bs => ({ s0 with delta := bs }, true)
  | none => (s0, false)

/-- `AccountStore::GetSerializedDelta`: a copy of the stored delta bytes. -/
def getSerializedDelta (s : StoreState) : List Nat := s.delta

/-- C10 (amended): `SerializeDelta` clears the stored delta before
recomputing it, so after a failed call (the codec writing nothing) the
stored delta is empty: `GetSerializedDelta` returns the empty buffer and
`GetStateDeltaHash` the distinguished empty digest.  Consequently the prior
delta is no longer retrievable whenever it was nonempty, and the prior
digest is no longer returned whenever the prior delta had a nonzero byte
and its SHA-256 digest differs from the empty digest. -/
theorem serializeDelta_failure_clears (sha : List Nat → StateHash) (s : StoreState) :
    (serializeDelta none s).2 = false ∧
    getSerializedDelta (serializeDelta none s).1 = [] ∧
    getStateDeltaHash sha (serializeDelta none s).1 = emptyHash ∧
    (s.delta ≠ [] →
      getSerializedDelta (serializeDelta none s).1 ≠ getSerializedDelta s) ∧
    ((∃ b ∈ s.delta, b ≠ 0) → sha s.delta ≠ emptyHash →
      getStateDeltaHash sha (serializeDelta none s).1 ≠ getStateDeltaHash sha s) := by
  refine ⟨rfl, rfl, rfl, ?_, ?_⟩
  · intro h
    have hnil : getSerializedDelta (serializeDelta none s).1 = [] := rfl
    rw [hnil]
    exact fun heq => h heq.symm
  · intro h hne
    obtain ⟨b, hb, hbne⟩ := h
    have hnz : getStateDeltaHash sha s = sha s.delta := by
      rw [getStateDeltaHash, if_neg]
      intro hz
      exact hbne ((deltaAllZero_eq_true_iff s.delta).mp hz b hb)
    rw [hnz]
    intro heq
    exact hne (by
      have : getStateDeltaHash sha (serializeDelta none s).1 = emptyHash := rfl
      rw [this] at heq
      exact heq.symm)

/-- Witness for C10 (amended): applied to the state whose stored delta is
`[0, 3]` with the concrete digest function `shaW`. -/
theorem serializeDelta_failure_clears_witness :
    (sDeltaNonzero.delta ≠ [] ∧ (∃ b ∈ sDeltaNonzero.delta, b ≠ 0) ∧
      shaW sDeltaNonzero.delta ≠ emptyHash) ∧
    ((serializeDelta none sDeltaNonzero).2 = false ∧
     getSerializedDelta (serializeDelta none sDeltaNonzero).1 = [] ∧
     getStateDeltaHash shaW (serializeDelta none sDeltaNonzero).1 = emptyHash ∧
     (sDeltaNonzero.delta ≠ [] →
       getSerializedDelta (serializeDelta none sDeltaNonzero).1
          ≠ getSerializedDelta sDeltaNonzero) ∧
     ((∃ b ∈ sDeltaNonzero.delta, b ≠ 0) → shaW sDeltaNonzero.delta ≠ emptyHash →
       getStateDeltaHash shaW (serializeDelta none sDeltaNonzero).1
          ≠ getStateDeltaHash shaW sDeltaNonzero)) :=
  ⟨⟨by decide, by decide, by decide⟩,
    serializeDelta_failure_clears shaW sDeltaNonzero⟩

/-- C10 as stated is false: when the prior stored delta was already empty, a
failed `SerializeDelta` leaves `GetSerializedDelta` returning exactly the
prior delta and `GetStateDeltaHash` returning exactly the prior digest, so
the prior delta is still retrievable after the failure. -/
theorem serializeDelta_failure_prior_delta_retrievable :
    (serializeDelta none emptyState).2 = false ∧
    getSerializedDelta (serializeDelta none emptyState).1
        = getSerializedDelta emptyState ∧
    getStateDeltaHash shaW (serializeDelta none emptyState).1
        = getStateDeltaHash shaW emptyState := by
  refine ⟨by decide, by decide, by decide⟩

/-! ## Claim C6: `RetrieveFromDisk` -/

/-- `AccountStore::InitSoft`: reset the in-memory mapping, the revertible
change set and the temp overlay (with the stored delta buffer) without
resetting the on-disk trie. -/
def initSoft (s : StoreState) : StoreState :=
  { s with m := [], changed := [], created := [], csRevertibles := [],
            temp := [], delta := [] }

/-- What `RetrieveFromDisk` makes of one trie leaf: `DeserializeBase`, then
`SetAddress` on the leaf's address if the account is a contract; `none`
when deserialization fails (the leaf is skipped). -/
def decodeLeaf (x : Addr) (b : LeafBytes) : Option Account :=
  match deserializeBase b with
  | some acc => some (if acc.isContract then { acc with address := x } else acc)
  | none => none

/-- The leaf-iteration loop of `RetrieveFromDisk`: deserialize each leaf,
skip it on failure (`continue`), otherwise fix up the contract address and
insert it into the in-memory mapping. -/
def populate : List (Addr × LeafBytes) → StoreState → StoreState
  | [], s => s
  | (a, b) :: rest, s =>
    match deserializeBase b with
    | none => populate rest s
    | some acc =>
      populate rest { s with m := insertA s.m a (if acc.isContract then { acc with address := a } else acc) }

/-- `AccountStore::RetrieveFromDisk`: `InitSoft`, then read the persisted
root digest from the Disk Metadata Store (`meta`, external); absent digest
means `false`.  Otherwise set the trie root to the digest and populate the
in-memory mapping from the trie's leaves (`leaves`, the external trie's
iteration), returning `true`. -/
def retrieveFromDisk (meta : Option Nat) (leaves : List (Addr × LeafBytes))
    (s : StoreState) : StoreState × Bool :=
  let s0 := initSoft s
  match meta with
  | none => (s0, false)
  | some r => (populate leaves { s0 with curRoot := r }, true)

theorem populate_m_not_mem (leaves : List (Addr × LeafBytes)) (s : StoreState)
    (x : Addr) (hx : x ∉ leaves.map Prod.fst) :
    lookupA (populate leaves s).m x = lookupA s.m x := by
  induction leaves generalizing s with
  | nil => rfl
  | cons p rest ih =>
    obtain ⟨a, b⟩ := p
    simp only [List.map_cons, List.mem_cons] at hx
    push_neg at hx
    cases hd : deserializeBase b with
    | none => simp only [populate, hd]; exact ih _ hx.2
    | some acc =>
      simp only [populate, hd]
      rw [ih _ hx.2]
      simp only [lookupA_insertA, if_neg hx.1]

theorem populate_curRoot (leaves : List (Addr × LeafBytes)) (s : StoreState) :
    (populate leaves s).curRoot = s.curRoot := by
  induction leaves generalizing s with
  | nil => rfl
  | cons p rest ih =>
    obtain ⟨a, b⟩ := p
    cases hd : deserializeBase b <;> simp only [populate, hd] <;> exact ih _

theorem populate_m (leaves : List (Addr × LeafBytes)) (s : StoreState)
    (hN : (leaves.map Prod.fst).Nodup)
    (habs : ∀ y ∈ leaves.map Prod.fst, lookupA s.m y = none) :
    ∀ x, lookupA (populate leaves s).m x =
      match lookupA leaves x with
      | some b => decodeLeaf x b
      | none => lookupA s.m x := by
  induction leaves generalizing s with
  | nil => intro x; rfl
  | cons p rest ih =>
    obtain ⟨a, b⟩ := p
    simp only [List.map_cons, List.nodup_cons] at hN
    obtain ⟨ha, hN'⟩ := hN
    have hma : lookupA s.m a = none :=
      habs a (by simp [List.mem_cons])
    intro x
    cases hd : deserializeBase b with
    | none =>
      have habs' : ∀ y ∈ rest.map Prod.fst, lookupA s.m y = none := by
        intro y hy
        exact habs y (by simp [List.mem_cons, hy])
      by_cases hx : x = a
      · subst hx
        simp only [populate, hd]
        rw [populate_m_not_mem rest s x ha]
        simp [lookupA_cons, hma, decodeLeaf, hd]
      · simp only [populate, hd]
        rw [ih s hN' habs' x, lookupA_cons, if_neg hx]
    | some acc =>
      have habs' : ∀ y ∈ rest.map Prod.fst,
          lookupA (insertA s.m a
            (if acc.isContract then { acc with address := a } else acc)) y = none := by
        intro y hy
        have hya : y ≠ a := fun h => ha (h ▸ hy)
        rw [lookupA_insertA, if_neg hya]
        exact habs y (by simp [List.mem_cons, hy])
      by_cases hx : x = a
      · subst hx
        simp only [populate, hd]
        rw [populate_m_not_mem rest _ x ha]
        simp [lookupA_insertA, lookupA_cons, hma, decodeLeaf, hd]
      · simp only [populate, hd]
        rw [ih _ hN' habs' x, lookupA_cons, if_neg hx]
        cases hr : lookupA rest x with
        | some c => simp [hr]
        | none => simp [hr, lookupA_insertA, hx]

/-- C6: `RetrieveFromDisk` returns `false` when no persisted root digest
exists in the Disk Metadata Store; otherwise it sets the trie root to the
persisted digest, populates the in-memory mapping with exactly the leaves
whose bytes deserialize into an Account (with the contract address fix-up),
skips every leaf whose deserialization fails, and returns `true`. -/
theorem retrieveFromDisk_spec (meta : Option Nat) (leaves : List (Addr × LeafBytes))
    (s : StoreState) (hN : (leaves.map Prod.fst).Nodup) :
    (meta = none → retrieveFromDisk meta leaves s = (initSoft s, false)) ∧
    (∀ r, meta = some r →
      (retrieveFromDisk meta leaves s).2 = true ∧
      (retrieveFromDisk meta leaves s).1.curRoot = r ∧
      (∀ x, lookupA (retrieveFromDisk meta leaves s).1.m x =
        match lookupA leaves x with
        | some b => decodeLeaf x b
        | none => none)) := by
  constructor
  · intro h
    subst h
    rfl
  · intro r h
    subst h
    refine ⟨rfl, ?_, ?_⟩
    · exact populate_curRoot leaves _
    · intro x
      have habs : ∀ y ∈ leaves.map Prod.fst,
          lookupA ({ initSoft s with curRoot := r }).m y = none := by
        intro y _
        rfl
      have := populate_m leaves { initSoft s with curRoot := r } hN habs x
      simp only [retrieveFromDisk]
      rw [this]
      cases lookupA leaves x <;> rfl

/-- Concrete trie leaves: a plain account, one corrupt leaf, a contract. -/
def leavesW : List (Addr × LeafBytes) :=
  [(0, .good accA), (1, .bad 0), (2, .good accC)]

/-- Witness for C6: retrieving with persisted root 3 over `leavesW` loads
addresses 0 and 2, skips the corrupt leaf at address 1, and returns true. -/
theorem retrieveFromDisk_spec_witness :
    (leavesW.map Prod.fst).Nodup ∧
    ((retrieveFromDisk (some 3) leavesW emptyState).2 = true ∧
     (retrieveFromDisk (some 3) leavesW emptyState).1.curRoot = 3 ∧
     (∀ x, lookupA (retrieveFromDisk (some 3) leavesW emptyState).1.m x =
       match lookupA leavesW x with
       | some b => decodeLeaf x b
       | none => none)) :=
  ⟨by decide,
    (retrieveFromDisk_spec (some 3) leavesW emptyState (by decide)).2 3 rfl⟩

/-! ## Claim C7: `DiscardUnsavedUpdates` -/

/-- `AccountStore::DiscardUnsavedUpdates`: roll back the in-progress trie
transaction (`t := tBase`), restore the trie root to `m_prevRoot`, and
clear the in-memory mapping.  The whole `try` block is wrapped in a
catch-all that only logs, so the function always returns a state; `failAt`
marks which step (if any) the external trie made throw: step 0 the
rollback, step 1 the `setRoot`. -/
def discardUnsavedUpdates (failAt : Option (Fin 2)) (s : StoreState) : StoreState :=
  match failAt with
  | some ⟨0, _⟩ => s
  | some ⟨1, _⟩ => { s with t := s.tBase }
  | none => { s with t := s.tBase, curRoot := s.prevRoot, m := [] }

/-- C7: on the exception-free run, `DiscardUnsavedUpdates` rolls the staged
trie back to its committed contents, restores the current root to
`m_prevRoot` and clears the in-memory mapping; and on every run — any
exception point included — it returns a state (no failure is signalled),
never touching `m_prevRoot` or the committed trie contents. -/
theorem discardUnsavedUpdates_spec (s : StoreState) :
    ((discardUnsavedUpdates none s).t = s.tBase ∧
     (discardUnsavedUpdates none s).curRoot = s.prevRoot ∧
     (∀ x, lookupA (discardUnsavedUpdates none s).m x = none)) ∧
    (∀ e, (discardUnsavedUpdates e s).prevRoot = s.prevRoot ∧
      (discardUnsavedUpdates e s).tBase = s.tBase) := by
  refine ⟨⟨rfl, rfl, fun x => rfl⟩, ?_⟩
  intro e
  cases e with
  | none => exact ⟨rfl, rfl⟩
  | some f =>
    match f with
    | ⟨0, _⟩ => exact ⟨rfl, rfl⟩
    | ⟨1, _⟩ => exact ⟨rfl, rfl⟩

/-! ## Claim C8: `IsolatedServer::CreateTransaction` -/

/-- A JSON value as returned by the endpoint: the default-constructed
(empty) `Json::Value`, or a receipt object (`TransactionReceipt`'s JSON,
abstracted to its identifier). -/
inductive JsonValue where
  | empty
  | receiptJson (r : Nat)
deriving DecidableEq, Repr

/-- The observable result of one RPC call: a thrown `JsonRpcException`
(with its error code) or a returned JSON value. -/
inductive RpcOutcome where
  | thrown (code : Int)
  | value (v : JsonValue)
deriving DecidableEq, Repr

/-- `IsolatedServer::CreateTransaction`.  External collaborators passed as
parameters: the outcome of `JSONConversion::checkJsonTx` (`jsonOk`; failure
throws `RPC_PARSE_ERROR`), the outcome of `LookupServer::ValidateTxn`
(`validateOk`; failure returns the default-constructed empty value), the
transaction execution `UpdateAccountsTemp` (`exec`, returning the new
engine state and the receipt; its boolean result is ignored by the source),
the codec outcome `serOut` of the `SerializeDelta` call (its boolean result
is also ignored) and the parse `D` of the recomputed delta buffer that
`CommitTemp` applies. -/
def createTransaction (jsonOk validateOk : Bool)
    (exec : StoreState → StoreState × Nat)
    (serOut : Option (List Nat)) (D : List DeltaEntry)
    (s : StoreState) : StoreState × RpcOutcome :=
  if jsonOk then
    if validateOk then
      let er := exec s
      let s2 := (serializeDelta serOut er.1).1
      (commitTemp D s2, .value (.receiptJson er.2))
    else (s, .value .empty)
  else (s, .thrown (-32700))

/-- C8: a transaction that fails validation (a business-rule rejection) is
answered with the default-constructed empty JSON value — no error is
thrown — and the engine state is returned exactly as it was: nothing is
applied to the temp overlay and nothing is committed. -/
theorem createTransaction_rejected (validateOk : Bool)
    (exec : StoreState → StoreState × Nat) (serOut : Option (List Nat))
    (D : List DeltaEntry) (s : StoreState) (hv : validateOk = false) :
    createTransaction true validateOk exec serOut D s = (s, .value .empty) := by
  subst hv
  rfl

/-- A transaction execution that touches the temp overlay and yields
receipt 5 (used to show the rejection path never reaches it). -/
def execW (st : StoreState) : StoreState × Nat :=
  ({ st with temp := setA st.temp 0 accA }, 5)

/-- Witness for C8: a rejected transaction on `sContract` returns the empty
value and the untouched state, although `execW` would have modified it. -/
theorem createTransaction_rejected_witness :
    (false = false) ∧
    createTransaction true false execW (some [1]) dOne sContract
      = (sContract, .value .empty) :=
  ⟨rfl, createTransaction_rejected false execW (some [1]) dOne sContract rfl⟩

/-! ## Claim C9: `CommitTemp` swallows delta-application failures -/

/-- A delta whose first record applies and whose second is malformed. -/
def dPartial : List DeltaEntry := [.acc 3 accA, .malformed 0]

/-- C9: `CommitTemp` and `CommitTempRevertible` return only a state — their
embedding has no success output, mirroring the `void` return of the source,
where `DeserializeDelta`'s failure is only logged.  On the delta `dPartial`
the underlying application fails, yet both commits return the partially
updated store: the first record is applied (address 3 now maps to `accA`),
the failure is not observable at the interface, and the record after the
malformed one is not applied. -/
theorem commitTemp_swallows_failure :
    (deserializeDelta dPartial false emptyState).2 = false ∧
    commitTemp dPartial emptyState = (deserializeDelta dPartial false emptyState).1 ∧
    lookupA (commitTemp dPartial emptyState).m 3 = some accA ∧
    lookupA (commitTempRevertible dPartial emptyState).m 3 = some accA ∧
    lookupA emptyState.m 3 = none := by
  refine ⟨by decide, rfl, by decide, by decide, by decide⟩

end AccountStore
